import Mathlib

/-!
Verification of the flat-tree navigator and builder of `flange-flat-tree`.

The `Navigator` queries are embedded from `src/navigator/navigator_impl.rs`.
Rust panics (an `unwrap` on `None`, an out-of-bounds slice index) are made
explicit by returning `Except RFail _`; the `while let` loop of `children`
is embedded with explicit fuel, `RFail.fuel` marking fuel exhaustion (the
Rust loop would diverge or run longer than the fuel allows only on inputs
that never arise from the builder, as proved below).

The navigator's builder (`src/navigator/builder.rs`) and the `Neighbors`
record (`src/navigator/neighbors.rs`) are not part of the published sources;
they are modelled from the specification, see `NavBuilder` below.
-/

namespace FlangeFlatTree

/-- Per-node structural metadata: optional parent, previous-sibling and
next-sibling indices (from `Neighbors<usize>`). -/
structure Neighbors where
  parent : Option Nat
  prev_sibling : Option Nat
  next_sibling : Option Nat
deriving Repr, DecidableEq

/-- Observable failure of a query: `panic` embeds a Rust panic
(`Option::unwrap` on `None`, or out-of-bounds slice indexing), `fuel`
marks exhaustion of the explicit fuel of the `children` loop. -/
inductive RFail where
  | panic : RFail
  | fuel : RFail
deriving Repr, DecidableEq

/-- The navigator stores the tree structure as one `Neighbors` record per
node, indexed by pre-order position (from `Navigator` in
`src/navigator/navigator_impl.rs`). -/
structure Navigator where
  neighbors : List Neighbors
deriving Repr, DecidableEq

namespace Navigator

/-- `Navigator::parent`: `self.neighbors.get(index).and_then(|n| n.parent)`. -/
def parent (nav : Navigator) (index : Nat) : Option Nat :=
  (nav.neighbors.get? index).bind (fun n => n.parent)

/-- `Navigator::prev_sibling`: `self.neighbors.get(index).and_then(|n| n.prev_sibling)`. -/
def prev_sibling (nav : Navigator) (index : Nat) : Option Nat :=
  (nav.neighbors.get? index).bind (fun n => n.prev_sibling)

/-- `Navigator::next_sibling`: `self.neighbors.get(index).and_then(|n| n.next_sibling)`. -/
def next_sibling (nav : Navigator) (index : Nat) : Option Nat :=
  (nav.neighbors.get? index).bind (fun n => n.next_sibling)

/-- `Navigator::get_neighbors`: `&self.neighbors[index]` — Rust slice
indexing, which panics when `index` is out of bounds. -/
def get_neighbors (nav : Navigator) (index : Nat) : Except RFail Neighbors :=
  match nav.neighbors.get? index with
  | none => .error .panic
  | some n => .ok n

/-- `Navigator::first_child`:
`self.neighbors.get(index + 1).and_then(|i| if i.parent.unwrap() != index { None } else { Some(index + 1) })`.
The `unwrap` panics when the record at `index + 1` has no parent. -/
def first_child (nav : Navigator) (index : Nat) : Except RFail (Option Nat) :=
  match nav.neighbors.get? (index + 1) with
  | none => .ok none
  | some n =>
    match n.parent with
    | none => .error .panic
    | some p => if p ≠ index then .ok none else .ok (some (index + 1))

/-- The `while let Some(cindex) = opt_cindex` loop of `Navigator::children`,
with explicit fuel. Each iteration pushes `cindex` and follows
`self.neighbors.get(cindex).unwrap().next_sibling`; the `unwrap` on a
missing record is a panic. -/
def childrenLoop (ns : List Neighbors) : Nat → Option Nat → Except RFail (List Nat)
  | _, none => .ok []
  | 0, some _ => .error .fuel
  | fuel + 1, some c =>
    match ns.get? c with
    | none => .error .panic
    | some n => (childrenLoop ns fuel n.next_sibling).map (fun l => c :: l)

/-- `Navigator::children`: start from `first_child(index)` and follow
`next_sibling` links, collecting the visited indices. -/
def children (nav : Navigator) (index : Nat) : Except RFail (List Nat) :=
  match first_child nav index with
  | .error e => .error e
  | .ok fc => childrenLoop nav.neighbors (nav.neighbors.length + 1) fc

/-- Helper for `for_each_depth_first`: run `children` on each index of the
list in order, recording the `(index, children)` arguments passed to the
callback; stop at the first panic, as the Rust iteration would. -/
def visitFrom (nav : Navigator) : List Nat → Except RFail (List (Nat × List Nat))
  | [] => .ok []
  | i :: is =>
    match children nav i with
    | .error e => .error e
    | .ok cs => (visitFrom nav is).map (fun vs => (i, cs) :: vs)

/-- `Navigator::for_each_depth_first`:
`(0..self.neighbors.len()).rev().for_each(|i| f(i, self.children(i)))`.
The embedding returns the list of `(i, children(i))` callback arguments in
call order. -/
def for_each_depth_first (nav : Navigator) : Except RFail (List (Nat × List Nat)) :=
  visitFrom nav (List.range nav.neighbors.length).reverse

end Navigator

/-- Replace the `next_sibling` field of the record at position `j` by
`some v` (the back-patch performed by the builder); out-of-range `j`
leaves the list unchanged. -/
def patchNext : List Neighbors → Nat → Nat → List Neighbors
  | [], _, _ => []
  | n :: rest, 0, v => { n with next_sibling := some v } :: rest
  | n :: rest, j + 1, v => n :: patchNext rest j v

/-- Modelled from the spec: the navigator's stack-based `Builder`
(`src/navigator/builder.rs` is not among the published sources; §4.1 of the
design). It owns the in-progress `Neighbors` sequence, a stack of currently
open node indices — each paired with the index of its most recently closed
direct child — and the most recently closed top-level root. -/
structure NavBuilder where
  neighbors : List Neighbors
  stack : List (Nat × Option Nat)
  lastRoot : Option Nat
deriving Repr, DecidableEq

namespace NavBuilder

/-- Modelled from the spec: a fresh builder has no nodes, no open node and
no closed root. -/
def new : NavBuilder := ⟨[], [], none⟩

/-- Modelled from the spec: `start_element` assigns the next sequential
index, sets `parent` to the top of the open-node stack, sets
`prev_sibling` to the most recently closed direct child of the stack top
(or the most recently closed root when the stack is empty), back-patches
that sibling's `next_sibling`, and pushes the new index. -/
def start_element (b : NavBuilder) : Nat × NavBuilder :=
  let idx := b.neighbors.length
  match b.stack with
  | [] =>
    let ns := match b.lastRoot with
      | none => b.neighbors
      | some r => patchNext b.neighbors r idx
    (idx, ⟨ns ++ [⟨none, b.lastRoot, none⟩], [(idx, none)], b.lastRoot⟩)
  | (p, lc) :: rest =>
    let ns := match lc with
      | none => b.neighbors
      | some c => patchNext b.neighbors c idx
    (idx, ⟨ns ++ [⟨some p, lc, none⟩], (idx, none) :: (p, lc) :: rest, b.lastRoot⟩)

/-- Modelled from the spec: `end_element` closes the top of the open-node
stack, records the closed index as the most recently closed child of the
new stack top (or as the last closed root), and returns it. Closing with
no open node is a hard failure (`none`). -/
def end_element (b : NavBuilder) : Option (Nat × NavBuilder) :=
  match b.stack with
  | [] => none
  | (i, _) :: rest =>
    match rest with
    | [] => some (i, ⟨b.neighbors, [], some i⟩)
    | (p, _) :: rest2 => some (i, ⟨b.neighbors, (p, some i) :: rest2, b.lastRoot⟩)

/-- Modelled from the spec: `start_end_element` inserts a complete leaf in
one step — the new record is appended with the same parent and sibling
links `start_element` would give it, and it is immediately recorded as the
most recently closed child (or root). The spec requires this to be
semantically equivalent to `start_element` followed by `end_element`. -/
def start_end_element (b : NavBuilder) : Nat × NavBuilder :=
  let idx := b.neighbors.length
  match b.stack with
  | [] =>
    let ns := match b.lastRoot with
      | none => b.neighbors
      | some r => patchNext b.neighbors r idx
    (idx, ⟨ns ++ [⟨none, b.lastRoot, none⟩], [], some idx⟩)
  | (p, lc) :: rest =>
    let ns := match lc with
      | none => b.neighbors
      | some c => patchNext b.neighbors c idx
    (idx, ⟨ns ++ [⟨some p, lc, none⟩], (p, some idx) :: rest, b.lastRoot⟩)

/-- Modelled from the spec: `build` finalizes the builder into a
`Navigator`. Precondition: the open-node stack is empty; an unbalanced
builder is a hard failure (`none`). -/
def build (b : NavBuilder) : Option Navigator :=
  match b.stack with
  | [] => some ⟨b.neighbors⟩
  | _ => none

end NavBuilder

/-- The value-carrying tree: a navigator paired with one payload per node
(from `FlatTree` / `VecValues`, payload storage flattened to a list). -/
structure FlatTree (A : Type) where
  nav : Navigator
  values : List A

/-- The tree `Builder<A>` from `src/builder.rs`: a navigator builder plus
the parallel payload vector. -/
structure Builder (A : Type) where
  nav_builder : NavBuilder
  values : List A

namespace Builder

/-- `Builder::new`. -/
def new (A : Type) : Builder A := ⟨NavBuilder.new, []⟩

/-- `Builder::start_element`: `self.values.push(el); self.nav_builder.start_element()`. -/
def start_element (b : Builder A) (el : A) : Nat × Builder A :=
  let s := b.nav_builder.start_element
  (s.1, ⟨s.2, b.values ++ [el]⟩)

/-- `Builder::end_element`: `self.nav_builder.end_element()`. -/
def end_element (b : Builder A) : Option (Nat × Builder A) :=
  (b.nav_builder.end_element).map (fun s => (s.1, ⟨s.2, b.values⟩))

/-- `Builder::start_end_element`: `self.values.push(el); self.nav_builder.start_end_element()`. -/
def start_end_element (b : Builder A) (el : A) : Nat × Builder A :=
  let s := b.nav_builder.start_end_element
  (s.1, ⟨s.2, b.values ++ [el]⟩)

/-- `Builder::build`: pair the built navigator with the payload vector. -/
def build (b : Builder A) : Option (FlatTree A) :=
  (b.nav_builder.build).map (fun n => ⟨n, b.values⟩)

end Builder

/-- One construction event of the navigator builder. -/
inductive Event where
  | start : Event
  | startEnd : Event
  | endEl : Event
deriving Repr, DecidableEq

/-- Run a sequence of construction events on a navigator builder;
`none` when an `end_element` hits an empty stack. -/
def runNav : List Event → NavBuilder → Option NavBuilder
  | [], b => some b
  | .start :: evs, b => runNav evs (b.start_element).2
  | .startEnd :: evs, b => runNav evs (b.start_end_element).2
  | .endEl :: evs, b => (b.end_element).bind (fun s => runNav evs s.2)

/-- Build a navigator from an event sequence, starting from a fresh builder. -/
def buildFrom (evs : List Event) : Option Navigator :=
  (runNav evs NavBuilder.new).bind NavBuilder.build

/-- One construction event of the value-carrying tree builder. -/
inductive BEvent (A : Type) where
  | start : A → BEvent A
  | startEnd : A → BEvent A
  | endEl : BEvent A

/-- Run a sequence of events on the tree builder. -/
def runBuilder : List (BEvent A) → Builder A → Option (Builder A)
  | [], b => some b
  | .start a :: evs, b => runBuilder evs (b.start_element a).2
  | .startEnd a :: evs, b => runBuilder evs (b.start_end_element a).2
  | .endEl :: evs, b => (b.end_element).bind (fun s => runBuilder evs s.2)

/-- The payloads passed to the start calls of an event sequence, in order
(each `start` and each `startEnd` is one start call). -/
def startPayloads : List (BEvent A) → List A
  | [] => []
  | .start a :: evs => a :: startPayloads evs
  | .startEnd a :: evs => a :: startPayloads evs
  | .endEl :: evs => startPayloads evs

/-- Scenario 3 of the spec: a root with two leaf children. -/
def evs3 : List Event := [.start, .startEnd, .startEnd, .endEl]

/-- The navigator of scenario 3. -/
def nav3 : Navigator :=
  ⟨[⟨none, none, none⟩, ⟨some 0, none, some 2⟩, ⟨some 0, some 1, none⟩]⟩

/-- Scenario 4 of the spec: two top-level roots. -/
def evs4 : List Event := [.startEnd, .startEnd]

/-- The navigator of scenario 4 (two roots). -/
def twoRootNav : Navigator :=
  ⟨[⟨none, none, some 1⟩, ⟨none, some 0, none⟩]⟩

/-- The empty navigator (built from no events). -/
def emptyNav : Navigator := ⟨[]⟩

/-- A concrete event sequence for the value-carrying builder. -/
def bEvs : List (BEvent Nat) := [.start 10, .startEnd 20, .endEl]

/-- The builder state reached by running `bEvs` from a fresh builder. -/
def bDone : Builder Nat :=
  ⟨⟨[⟨none, none, none⟩, ⟨some 0, none, none⟩], [], some 0⟩, [10, 20]⟩

/-- Well-formedness of a neighbors sequence: all stored links point
backwards (`prev_sibling`, `parent`) or forwards (`next_sibling`) within
bounds, sibling links are symmetric, and the parent of any node with a
parent `p` can also be found at position `p + 1` (the contiguity
invariant). -/
structure NsInv (ns : List Neighbors) : Prop where
  next_lt : ∀ j n k, ns.get? j = some n → n.next_sibling = some k →
    j < k ∧ k < ns.length
  prev_lt : ∀ j n k, ns.get? j = some n → n.prev_sibling = some k → k < j
  parent_lt : ∀ j n p, ns.get? j = some n → n.parent = some p → p < j
  next_prev : ∀ j n k, ns.get? j = some n → n.next_sibling = some k →
    ∃ m, ns.get? k = some m ∧ m.prev_sibling = some j
  prev_next : ∀ j n k, ns.get? j = some n → n.prev_sibling = some k →
    ∃ m, ns.get? k = some m ∧ m.next_sibling = some j
  contig : ∀ j n p, ns.get? j = some n → n.parent = some p →
    ∃ m, ns.get? (p + 1) = some m ∧ m.parent = some p

/-- The ancestor chain stored in the builder stack (top first): indices
strictly decrease going down, each open node's record names the entry
below it as its parent, and the bottom entry is a root. -/
def stackChain (ns : List Neighbors) : List (Nat × Option Nat) → Prop
  | [] => True
  | [e] => ∃ n, ns.get? e.1 = some n ∧ n.parent = none
  | e :: f :: rest =>
    f.1 < e.1 ∧ (∃ n, ns.get? e.1 = some n ∧ n.parent = some f.1) ∧
      stackChain ns (f :: rest)

/-- Invariant of a reachable builder state, over its three components. -/
structure BInv (ns : List Neighbors) (stk : List (Nat × Option Nat))
    (lr : Option Nat) : Prop where
  ns_inv : NsInv ns
  stack_mem : ∀ e ∈ stk, e.1 < ns.length ∧
    ∃ n, ns.get? e.1 = some n ∧ n.next_sibling = none
  chain : stackChain ns stk
  top_new : ∀ p, stk.head? = some (p, none) → ns.length = p + 1
  top_lc : ∀ p c, stk.head? = some (p, some c) → p < c ∧
    ∃ n, ns.get? c = some n ∧ n.parent = some p ∧ n.next_sibling = none
  root_lc : ∀ r, lr = some r → r < ns.length ∧
    ∃ n, ns.get? r = some n ∧ n.parent = none ∧
      (stk = [] → n.next_sibling = none)

/-- Invariant of a reachable builder. -/
def NavBuilder.Inv (b : NavBuilder) : Prop := BInv b.neighbors b.stack b.lastRoot

/-- `d` is a strict descendant of `i`: the parent chain starting at `d`
reaches `i`. -/
def Descendant (nav : Navigator) (d i : Nat) : Prop :=
  Relation.TransGen (fun a b => nav.parent a = some b) d i

/-- Position of the first occurrence of `a` in a list of indices. -/
def posOf (a : Nat) : List Nat → Nat
  | [] => 0
  | b :: t => if b = a then 0 else posOf a t + 1

/-! ### List access helpers -/

theorem get?_some_lt {α : Type} {l : List α} {j : Nat} {x : α}
    (h : l.get? j = some x) : j < l.length := by
  induction l generalizing j with
  | nil => simp [List.get?] at h
  | cons a t ih =>
    cases j with
    | zero => simp
    | succ j => simpa using Nat.succ_lt_succ (ih (by simpa using h))

theorem get?_none_of_le {α : Type} {l : List α} {j : Nat}
    (h : l.length ≤ j) : l.get? j = none := by
  induction l generalizing j with
  | nil => rfl
  | cons a t ih =>
    cases j with
    | zero => simp at h
    | succ j => simpa using ih (by simpa using h)

theorem get?_lt_some {α : Type} {l : List α} {j : Nat}
    (h : j < l.length) : ∃ x, l.get? j = some x := by
  induction l generalizing j with
  | nil => simp at h
  | cons a t ih =>
    cases j with
    | zero => exact ⟨a, rfl⟩
    | succ j => simpa using ih (by simpa using h)

theorem get?_app_lt {α : Type} {l : List α} (l2 : List α) {j : Nat}
    (h : j < l.length) : (l ++ l2).get? j = l.get? j := by
  induction l generalizing j with
  | nil => simp at h
  | cons a t ih =>
    cases j with
    | zero => rfl
    | succ j => simpa using ih (by simpa using h)

theorem get?_app_len {α : Type} (l : List α) (x : α) :
    (l ++ [x]).get? l.length = some x := by
  induction l with
  | nil => rfl
  | cons a t ih => simp only [List.cons_append, List.length_cons, List.get?]; exact ih

theorem get?_app_gt {α : Type} {l : List α} (x : α) {j : Nat}
    (h : l.length < j) : (l ++ [x]).get? j = none := by
  apply get?_none_of_le
  simpa using h

/-! ### patchNext lemmas -/

theorem patchNext_length (l : List Neighbors) (c v : Nat) :
    (patchNext l c v).length = l.length := by
  induction l generalizing c with
  | nil => rfl
  | cons n t ih =>
    cases c with
    | zero => rfl
    | succ c => simpa [patchNext] using ih c

theorem patchNext_get?_ne (l : List Neighbors) (c v : Nat) {j : Nat}
    (h : j ≠ c) : (patchNext l c v).get? j = l.get? j := by
  induction l generalizing c j with
  | nil => rfl
  | cons n t ih =>
    cases c with
    | zero =>
      cases j with
      | zero => exact absurd rfl h
      | succ j => rfl
    | succ c =>
      cases j with
      | zero => rfl
      | succ j => simpa [patchNext] using ih c (fun hc => h (by simp [hc]))

theorem patchNext_get?_self {l : List Neighbors} {c : Nat} (v : Nat) {n : Neighbors}
    (h : l.get? c = some n) :
    (patchNext l c v).get? c = some { n with next_sibling := some v } := by
  induction l generalizing c with
  | nil => simp [List.get?] at h
  | cons m t ih =>
    cases c with
    | zero =>
      simp [List.get?] at h
      simp [patchNext, List.get?, h]
    | succ c => simpa [patchNext] using ih (by simpa using h)

/-! ### Stack chain lemmas -/

theorem stackChain_lt_head {ns : List Neighbors} {e : Nat × Option Nat}
    {t : List (Nat × Option Nat)} (h : stackChain ns (e :: t)) :
    ∀ f ∈ t, f.1 < e.1 := by
  induction t generalizing e with
  | nil => intro f hf; simp at hf
  | cons f t' ih =>
    intro g hg
    obtain ⟨hlt, _, hch⟩ := h
    rcases List.mem_cons.mp hg with rfl | hg'
    · exact hlt
    · exact lt_trans (ih hch g hg') hlt

theorem stackChain_snd {ns : List Neighbors} {p : Nat} {x y : Option Nat}
    {t : List (Nat × Option Nat)} (h : stackChain ns ((p, x) :: t)) :
    stackChain ns ((p, y) :: t) := by
  cases t with
  | nil => exact h
  | cons f t' => exact h

theorem stackChain_mono {ns ns' : List Neighbors}
    (hpar : ∀ j, j < ns.length →
      (ns'.get? j).map Neighbors.parent = (ns.get? j).map Neighbors.parent) :
    ∀ {s : List (Nat × Option Nat)}, (∀ e ∈ s, e.1 < ns.length) →
      stackChain ns s → stackChain ns' s := by
  intro s
  induction s with
  | nil => intro _ _; trivial
  | cons e t ih =>
    intro hm h
    cases t with
    | nil =>
      obtain ⟨n, hn, hp⟩ := h
      have he := hpar e.1 (hm e (by simp))
      rw [hn] at he
      obtain ⟨n', hn', hpn'⟩ := Option.map_eq_some'.mp he
      exact ⟨n', hn', by rw [hpn', hp]⟩
    | cons f t' =>
      obtain ⟨hlt, ⟨n, hn, hp⟩, hch⟩ := h
      have he := hpar e.1 (hm e (by simp))
      rw [hn] at he
      obtain ⟨n', hn', hpn'⟩ := Option.map_eq_some'.mp he
      exact ⟨hlt, ⟨n', hn', by rw [hpn', hp]⟩,
        ih (fun g hg => hm g (List.mem_cons_of_mem e hg)) hch⟩

/-! ### Appending a node preserves the neighbors invariant -/

theorem NsInv_append_core {ns pp : List Neighbors} {par prv : Option Nat}
    (hinv : NsInv ns)
    (hlen : pp.length = ns.length)
    (P1 : ∀ j x, pp.get? j = some x → ∃ y, ns.get? j = some y ∧
      x.parent = y.parent ∧ x.prev_sibling = y.prev_sibling ∧
      (x.next_sibling = y.next_sibling ∨
        (prv = some j ∧ y.next_sibling = none ∧
          x.next_sibling = some ns.length)))
    (P2 : ∀ j y, ns.get? j = some y → ∃ x, pp.get? j = some x ∧
      x.parent = y.parent ∧ x.prev_sibling = y.prev_sibling ∧
      (x.next_sibling = y.next_sibling ∨
        (prv = some j ∧ y.next_sibling = none ∧
          x.next_sibling = some ns.length)))
    (P3 : ∀ c, prv = some c → c < ns.length ∧
      ∃ x, pp.get? c = some x ∧ x.next_sibling = some ns.length)
    (hpar : ∀ p, par = some p → p < ns.length ∧
      (ns.length = p + 1 ∨ ∃ m, ns.get? (p + 1) = some m ∧
        m.parent = some p)) :
    NsInv (pp ++ [⟨par, prv, none⟩]) := by
  set nw : Neighbors := ⟨par, prv, none⟩ with hnw
  have hlen' : (pp ++ [nw]).length = ns.length + 1 := by simp [hlen]
  have F_at : ∀ j, j < ns.length → (pp ++ [nw]).get? j = pp.get? j := by
    intro j h
    exact get?_app_lt _ (by rw [hlen]; exact h)
  have F_len : (pp ++ [nw]).get? ns.length = some nw := by
    rw [← hlen]
    exact get?_app_len pp nw
  have F_split : ∀ j x, (pp ++ [nw]).get? j = some x →
      (j < ns.length ∧ pp.get? j = some x) ∨ (j = ns.length ∧ x = nw) := by
    intro j x h
    rcases Nat.lt_trichotomy j ns.length with hlt | heq | hgt
    · exact Or.inl ⟨hlt, by rw [← F_at j hlt]; exact h⟩
    · subst heq
      rw [F_len] at h
      exact Or.inr ⟨rfl, (Option.some_inj.mp h).symm⟩
    · exfalso
      rw [get?_app_gt nw (by rw [hlen]; exact hgt)] at h
      exact Option.noConfusion h
  constructor
  · -- next_lt
    intro j n k hj hk
    rcases F_split j n hj with ⟨hjlt, hpp⟩ | ⟨rfl, rfl⟩
    · obtain ⟨y, hy, _, _, hnext⟩ := P1 j n hpp
      rcases hnext with heq | ⟨_, _, heqL⟩
      · obtain ⟨h1, h2⟩ := hinv.next_lt j y k hy (by rw [← heq]; exact hk)
        exact ⟨h1, by rw [hlen']; exact Nat.lt_succ_of_lt h2⟩
      · rw [heqL] at hk
        have : k = ns.length := (Option.some_inj.mp hk).symm
        subst this
        exact ⟨hjlt, by rw [hlen']; exact Nat.lt_succ_self _⟩
    · exact absurd hk (by simp [hnw])
  · -- prev_lt
    intro j n k hj hk
    rcases F_split j n hj with ⟨hjlt, hpp⟩ | ⟨rfl, rfl⟩
    · obtain ⟨y, hy, _, hprev, _⟩ := P1 j n hpp
      exact hinv.prev_lt j y k hy (by rw [← hprev]; exact hk)
    · have : prv = some k := by
        rw [← hk]
      exact (P3 k this).1
  · -- parent_lt
    intro j n p hj hp
    rcases F_split j n hj with ⟨hjlt, hpp⟩ | ⟨rfl, rfl⟩
    · obtain ⟨y, hy, hpar', _, _⟩ := P1 j n hpp
      exact hinv.parent_lt j y p hy (by rw [← hpar']; exact hp)
    · have : par = some p := by
        rw [← hp]
      exact (hpar p this).1
  · -- next_prev
    intro j n k hj hk
    rcases F_split j n hj with ⟨hjlt, hpp⟩ | ⟨rfl, rfl⟩
    · obtain ⟨y, hy, _, _, hnext⟩ := P1 j n hpp
      rcases hnext with heq | ⟨hprvj, _, heqL⟩
      · obtain ⟨m, hm, hmprev⟩ :=
          hinv.next_prev j y k hy (by rw [← heq]; exact hk)
        have hklt : k < ns.length := get?_some_lt hm
        obtain ⟨x, hx, _, hxprev, _⟩ := P2 k m hm
        exact ⟨x, by rw [F_at k hklt]; exact hx, by rw [hxprev]; exact hmprev⟩
      · rw [heqL] at hk
        have : k = ns.length := (Option.some_inj.mp hk).symm
        subst this
        exact ⟨nw, F_len, by simp [hnw]; exact hprvj⟩
    · exact absurd hk (by simp [hnw])
  · -- prev_next
    intro k n j hk hj
    rcases F_split k n hk with ⟨hklt, hpp⟩ | ⟨rfl, rfl⟩
    · obtain ⟨y, hy, _, hprev, _⟩ := P1 k n hpp
      obtain ⟨m, hm, hmnext⟩ :=
        hinv.prev_next k y j hy (by rw [← hprev]; exact hj)
      have hjlt : j < ns.length := get?_some_lt hm
      obtain ⟨x, hx, _, _, hxnext⟩ := P2 j m hm
      rcases hxnext with heq | ⟨hprvj, hmn, _⟩
      · exact ⟨x, by rw [F_at j hjlt]; exact hx, by rw [heq]; exact hmnext⟩
      · rw [hmn] at hmnext
        exact absurd hmnext (by simp)
    · have hprvj : prv = some j := by
        simp [hnw] at hj
        rw [hj]
      obtain ⟨hjlt, x, hx, hxnext⟩ := P3 j hprvj
      exact ⟨x, by rw [F_at j hjlt]; exact hx, by rw [hxnext]⟩
  · -- contig
    intro j n p hj hp
    have key : p < ns.length ∧ (ns.length = p + 1 ∨
        ∃ m, ns.get? (p + 1) = some m ∧ m.parent = some p) := by
      rcases F_split j n hj with ⟨hjlt, hpp⟩ | ⟨rfl, rfl⟩
      · obtain ⟨y, hy, hpar', _, _⟩ := P1 j n hpp
        have hyp : y.parent = some p := by rw [← hpar']; exact hp
        refine ⟨lt_trans (hinv.parent_lt j y p hy hyp) (get?_some_lt hy),
          Or.inr ?_⟩
        exact hinv.contig j y p hy hyp
      · exact hpar p (by rw [← hp])
    rcases key.2 with heq | ⟨m, hm, hmp⟩
    · refine ⟨nw, by rw [← heq]; exact F_len, ?_⟩
      rcases F_split j n hj with ⟨hjlt, hpp⟩ | ⟨rfl, rfl⟩
      · -- the new node sits at p + 1 = ns.length, so its parent is par;
        -- but j < ns.length means n is an old node whose stored parent is p,
        -- and contiguity of ns gives a record at p + 1 < ns.length,
        -- contradicting ns.length = p + 1 being the fresh position...
        obtain ⟨y, hy, hpar', _, _⟩ := P1 j n hpp
        have hyp : y.parent = some p := by rw [← hpar']; exact hp
        obtain ⟨m, hm, hmp⟩ := hinv.contig j y p hy hyp
        have := get?_some_lt hm
        omega
      · simp [hnw] at hp ⊢
        exact hp
    · have hplt : p + 1 < ns.length := get?_some_lt hm
      obtain ⟨x, hx, hxpar, _, _⟩ := P2 (p + 1) m hm
      exact ⟨x, by rw [F_at (p + 1) hplt]; exact hx, by rw [hxpar]; exact hmp⟩

theorem get?_none_le {α : Type} {l : List α} {j : Nat}
    (h : l.get? j = none) : l.length ≤ j := by
  by_contra hlt
  push_neg at hlt
  obtain ⟨x, hx⟩ := get?_lt_some hlt
  rw [hx] at h
  exact Option.noConfusion h

theorem patchNext_parent_map (l : List Neighbors) (c v j : Nat) :
    ((patchNext l c v).get? j).map Neighbors.parent =
      (l.get? j).map Neighbors.parent := by
  rcases eq_or_ne j c with rfl | hne
  · cases h : l.get? j with
    | none =>
      have hn : (patchNext l j v).get? j = none := by
        apply get?_none_of_le
        rw [patchNext_length]
        exact get?_none_le h
      rw [hn]
    | some n =>
      rw [patchNext_get?_self v h]
      rfl
  · rw [patchNext_get?_ne l c v hne]

theorem patchNext_prev_map (l : List Neighbors) (c v j : Nat) :
    ((patchNext l c v).get? j).map Neighbors.prev_sibling =
      (l.get? j).map Neighbors.prev_sibling := by
  rcases eq_or_ne j c with rfl | hne
  · cases h : l.get? j with
    | none =>
      have hn : (patchNext l j v).get? j = none := by
        apply get?_none_of_le
        rw [patchNext_length]
        exact get?_none_le h
      rw [hn]
    | some n =>
      rw [patchNext_get?_self v h]
      rfl
  · rw [patchNext_get?_ne l c v hne]

/-! ### The builder invariant is preserved by every operation -/

theorem len_app_one {α : Type} (l : List α) (x : α) :
    (l ++ [x]).length = l.length + 1 := by
  simp

theorem Inv_start {b : NavBuilder} (h : b.Inv) : (b.start_element).2.Inv := by
  obtain ⟨ns, stk, lr⟩ := b
  have h' : BInv ns stk lr := h
  obtain ⟨hns, hsm, hch, htn, htl, hrl⟩ := h'
  cases stk with
  | nil =>
    cases lr with
    | none =>
      dsimp only [NavBuilder.Inv, NavBuilder.start_element]
      refine ⟨?_, ?_, ?_, ?_, ?_, ?_⟩
      · exact NsInv_append_core hns rfl
          (fun j x hx => ⟨x, hx, rfl, rfl, Or.inl rfl⟩)
          (fun j y hy => ⟨y, hy, rfl, rfl, Or.inl rfl⟩)
          (fun c hc => Option.noConfusion hc)
          (fun p hp => Option.noConfusion hp)
      · intro e he
        simp only [List.mem_singleton] at he
        subst he
        refine ⟨?_, ⟨⟨none, none, none⟩, get?_app_len ns _, rfl⟩⟩
        rw [len_app_one]
        omega
      · exact ⟨⟨none, none, none⟩, get?_app_len ns _, rfl⟩
      · intro p hp
        simp at hp
        subst hp
        rw [len_app_one]
      · intro p c hp
        simp at hp
      · intro r hr
        exact Option.noConfusion hr
    | some r =>
      obtain ⟨hrlt, nr, hnr, hnrpar, hnrnext⟩ := hrl r rfl
      have hnext : nr.next_sibling = none := hnrnext rfl
      dsimp only [NavBuilder.Inv, NavBuilder.start_element]
      refine ⟨?_, ?_, ?_, ?_, ?_, ?_⟩
      · refine NsInv_append_core hns (patchNext_length ns r ns.length)
          ?_ ?_ ?_ (fun p hp => Option.noConfusion hp)
        · intro j x hx
          rcases eq_or_ne j r with rfl | hne
          · rw [patchNext_get?_self ns.length hnr] at hx
            refine ⟨nr, hnr, ?_, ?_, Or.inr ⟨rfl, hnext, ?_⟩⟩ <;>
              rw [← Option.some_inj.mp hx]
          · rw [patchNext_get?_ne ns r ns.length hne] at hx
            exact ⟨x, hx, rfl, rfl, Or.inl rfl⟩
        · intro j y hy
          rcases eq_or_ne j r with rfl | hne
          · have hy' : y = nr := by
              rw [hnr] at hy
              exact Option.some_inj.mp hy.symm
            subst hy'
            exact ⟨_, patchNext_get?_self ns.length hnr, rfl, rfl,
              Or.inr ⟨rfl, hnext, rfl⟩⟩
          · rw [← patchNext_get?_ne ns r ns.length hne] at hy
            exact ⟨y, hy, rfl, rfl, Or.inl rfl⟩
        · intro c hc
          obtain rfl : r = c := Option.some_inj.mp hc
          exact ⟨hrlt, _, patchNext_get?_self ns.length hnr, rfl⟩
      · intro e he
        simp only [List.mem_singleton] at he
        subst he
        refine ⟨?_, ⟨⟨none, some r, none⟩, ?_, rfl⟩⟩
        · rw [len_app_one, patchNext_length]
          omega
        · have hg := get?_app_len (patchNext ns r ns.length) ⟨none, some r, none⟩
          rwa [patchNext_length] at hg
      · refine ⟨⟨none, some r, none⟩, ?_, rfl⟩
        have hg := get?_app_len (patchNext ns r ns.length) ⟨none, some r, none⟩
        rwa [patchNext_length] at hg
      · intro p hp
        simp at hp
        subst hp
        rw [len_app_one, patchNext_length]
      · intro p c hp
        simp at hp
      · intro r' hr'
        obtain rfl : r = r' := Option.some_inj.mp hr'
        refine ⟨?_, ?_⟩
        · rw [len_app_one, patchNext_length]
          omega
        · have hat : (patchNext ns r ns.length ++
              [(⟨none, some r, none⟩ : Neighbors)]).get? r
              = (patchNext ns r ns.length).get? r := by
            apply get?_app_lt
            rw [patchNext_length]
            exact hrlt
          rw [hat, patchNext_get?_self ns.length hnr]
          exact ⟨_, rfl, by simpa using hnrpar, fun habs => by simp at habs⟩
  | cons e rest =>
    obtain ⟨p, lc⟩ := e
    cases lc with
    | none =>
      obtain ⟨hplt, np, hnp, hnpnext⟩ := hsm (p, none) (List.mem_cons_self _ _)
      have hL : ns.length = p + 1 := htn p rfl
      dsimp only [NavBuilder.Inv, NavBuilder.start_element]
      refine ⟨?_, ?_, ?_, ?_, ?_, ?_⟩
      · refine NsInv_append_core hns rfl
          (fun j x hx => ⟨x, hx, rfl, rfl, Or.inl rfl⟩)
          (fun j y hy => ⟨y, hy, rfl, rfl, Or.inl rfl⟩)
          (fun c hc => Option.noConfusion hc) ?_
        intro q hq
        obtain rfl : p = q := Option.some_inj.mp hq
        exact ⟨hplt, Or.inl hL⟩
      · intro e he
        rcases List.mem_cons.mp he with rfl | he'
        · refine ⟨?_, ⟨⟨some p, none, none⟩, get?_app_len ns _, rfl⟩⟩
          rw [len_app_one]
          omega
        · obtain ⟨helt, ne, hne, hnen⟩ := hsm e he'
          refine ⟨?_, ⟨ne, ?_, hnen⟩⟩
          · rw [len_app_one]
            omega
          · rw [get?_app_lt _ helt]
            exact hne
      · refine ⟨hplt, ⟨⟨some p, none, none⟩, get?_app_len ns _, rfl⟩, ?_⟩
        refine stackChain_mono ?_ (fun g hg => (hsm g hg).1) hch
        intro j hj
        rw [get?_app_lt _ hj]
      · intro q hq
        simp at hq
        obtain ⟨rfl, -⟩ := hq
        rw [len_app_one]
      · intro q c hq
        simp at hq
      · intro r hr
        obtain ⟨hrlt, nr, hnr, hnrpar, -⟩ := hrl r hr
        refine ⟨?_, ⟨nr, ?_, hnrpar, fun habs => by simp at habs⟩⟩
        · rw [len_app_one]
          omega
        · rw [get?_app_lt _ hrlt]
          exact hnr
    | some c =>
      obtain ⟨hplt, np, hnp, hnpnext⟩ := hsm (p, some c) (List.mem_cons_self _ _)
      obtain ⟨hpc, nc, hnc, hncpar, hncnext⟩ := htl p c rfl
      have hclt : c < ns.length := get?_some_lt hnc
      dsimp only [NavBuilder.Inv, NavBuilder.start_element]
      refine ⟨?_, ?_, ?_, ?_, ?_, ?_⟩
      · refine NsInv_append_core hns (patchNext_length ns c ns.length)
          ?_ ?_ ?_ ?_
        · intro j x hx
          rcases eq_or_ne j c with rfl | hne
          · rw [patchNext_get?_self ns.length hnc] at hx
            refine ⟨nc, hnc, ?_, ?_, Or.inr ⟨rfl, hncnext, ?_⟩⟩ <;>
              rw [← Option.some_inj.mp hx]
          · rw [patchNext_get?_ne ns c ns.length hne] at hx
            exact ⟨x, hx, rfl, rfl, Or.inl rfl⟩
        · intro j y hy
          rcases eq_or_ne j c with rfl | hne
          · have hy' : y = nc := by
              rw [hnc] at hy
              exact Option.some_inj.mp hy.symm
            subst hy'
            exact ⟨_, patchNext_get?_self ns.length hnc, rfl, rfl,
              Or.inr ⟨rfl, hncnext, rfl⟩⟩
          · rw [← patchNext_get?_ne ns c ns.length hne] at hy
            exact ⟨y, hy, rfl, rfl, Or.inl rfl⟩
        · intro c' hc'
          obtain rfl : c = c' := Option.some_inj.mp hc'
          exact ⟨hclt, _, patchNext_get?_self ns.length hnc, rfl⟩
        · intro q hq
          obtain rfl : p = q := Option.some_inj.mp hq
          exact ⟨hplt, Or.inr (hns.contig c nc p hnc hncpar)⟩
      · intro e he
        rcases List.mem_cons.mp he with rfl | he'
        · refine ⟨?_, ⟨⟨some p, some c, none⟩, ?_, rfl⟩⟩
          · rw [len_app_one, patchNext_length]
            omega
          · have hg := get?_app_len (patchNext ns c ns.length)
              ⟨some p, some c, none⟩
            rwa [patchNext_length] at hg
        · obtain ⟨helt, ne, hne, hnen⟩ := hsm e he'
          have hec : e.1 ≠ c := by
            rcases List.mem_cons.mp he' with rfl | he''
            · omega
            · have := stackChain_lt_head hch e he''
              omega
          refine ⟨?_, ⟨ne, ?_, hnen⟩⟩
          · rw [len_app_one, patchNext_length]
            omega
          · rw [get?_app_lt _ (by rw [patchNext_length]; exact helt),
              patchNext_get?_ne ns c ns.length hec]
            exact hne
      · refine ⟨hplt, ⟨⟨some p, some c, none⟩, ?_, rfl⟩, ?_⟩
        · have hg := get?_app_len (patchNext ns c ns.length)
            ⟨some p, some c, none⟩
          rwa [patchNext_length] at hg
        · refine stackChain_mono ?_ (fun g hg => (hsm g hg).1) hch
          intro j hj
          rw [get?_app_lt _ (by rw [patchNext_length]; exact hj)]
          exact patchNext_parent_map ns c ns.length j
      · intro q hq
        simp at hq
        obtain ⟨rfl, -⟩ := hq
        rw [len_app_one, patchNext_length]
      · intro q c' hq
        simp at hq
      · intro r hr
        obtain ⟨hrlt, nr, hnr, hnrpar, -⟩ := hrl r hr
        have hrc : r ≠ c := by
          intro habs
          subst habs
          rw [hnr] at hnc
          obtain rfl : nr = nc := Option.some_inj.mp hnc
          rw [hnrpar] at hncpar
          exact Option.noConfusion hncpar
        refine ⟨?_, ⟨nr, ?_, hnrpar, fun habs => by simp at habs⟩⟩
        · rw [len_app_one, patchNext_length]
          omega
        · rw [get?_app_lt _ (by rw [patchNext_length]; exact hrlt),
            patchNext_get?_ne ns c ns.length hrc]
          exact hnr

theorem Inv_end {b : NavBuilder} {i : Nat} {b' : NavBuilder}
    (h : b.Inv) (he : b.end_element = some (i, b')) : b'.Inv := by
  obtain ⟨ns, stk, lr⟩ := b
  have h' : BInv ns stk lr := h
  obtain ⟨hns, hsm, hch, htn, htl, hrl⟩ := h'
  cases stk with
  | nil => exact absurd he (by simp [NavBuilder.end_element])
  | cons e rest =>
    obtain ⟨i', lc⟩ := e
    cases rest with
    | nil =>
      obtain ⟨hilt, ni, hni, hninext⟩ := hsm (i', lc) (List.mem_cons_self _ _)
      have hpar : ni.parent = none := by
        obtain ⟨n, hn, hp⟩ := hch
        rw [hni] at hn
        obtain rfl : ni = n := Option.some_inj.mp hn
        exact hp
      dsimp only [NavBuilder.end_element] at he
      injection he with he1
      injection he1 with he2 he3
      subst he2
      subst he3
      dsimp only [NavBuilder.Inv]
      refine ⟨hns, by simp, trivial, by simp, by simp, ?_⟩
      intro r hr
      obtain rfl : i' = r := Option.some_inj.mp hr
      exact ⟨hilt, ni, hni, hpar, fun _ => hninext⟩
    | cons f rest2 =>
      obtain ⟨p, plc⟩ := f
      obtain ⟨hilt, ni, hni, hninext⟩ := hsm (i', lc) (List.mem_cons_self _ _)
      obtain ⟨hpi, ⟨n, hn, hp⟩, hch2⟩ := hch
      dsimp only [NavBuilder.end_element] at he
      injection he with he1
      injection he1 with he2 he3
      subst he2
      subst he3
      dsimp only [NavBuilder.Inv]
      refine ⟨hns, ?_, ?_, ?_, ?_, ?_⟩
      · intro e he'
        rcases List.mem_cons.mp he' with rfl | he''
        · exact hsm (p, plc) (List.mem_cons_of_mem _ (List.mem_cons_self _ _))
        · exact hsm e (List.mem_cons_of_mem _ (List.mem_cons_of_mem _ he''))
      · exact stackChain_snd hch2
      · intro q hq
        simp at hq
      · intro q c hq
        simp at hq
        obtain ⟨rfl, rfl⟩ := hq
        rw [hni] at hn
        obtain rfl : ni = n := Option.some_inj.mp hn
        exact ⟨hpi, ni, hni, hp, hninext⟩
      · intro r hr
        obtain ⟨hrlt, nr, hnr, hnrpar, -⟩ := hrl r hr
        exact ⟨hrlt, nr, hnr, hnrpar, fun habs => by simp at habs⟩

theorem start_end_eq (b : NavBuilder) :
    (b.start_element).2.end_element =
      some ((b.start_element).1, (b.start_end_element).2) ∧
    (b.start_end_element).1 = (b.start_element).1 := by
  obtain ⟨ns, stk, lr⟩ := b
  cases stk with
  | nil => exact ⟨rfl, rfl⟩
  | cons e rest =>
    obtain ⟨p, lc⟩ := e
    exact ⟨rfl, rfl⟩

theorem Inv_startEnd {b : NavBuilder} (h : b.Inv) :
    (b.start_end_element).2.Inv :=
  Inv_end (Inv_start h) (start_end_eq b).1

theorem NsInv_nil : NsInv [] := by
  refine ⟨?_, ?_, ?_, ?_, ?_, ?_⟩ <;>
    intro j n k h <;>
    rw [get?_none_of_le (by simp)] at h <;>
    exact Option.noConfusion h

theorem Inv_new : NavBuilder.new.Inv := by
  dsimp only [NavBuilder.Inv, NavBuilder.new]
  refine ⟨NsInv_nil, by simp, trivial, by simp, by simp, by simp⟩

theorem Inv_run : ∀ {evs : List Event} {b b' : NavBuilder},
    b.Inv → runNav evs b = some b' → b'.Inv := by
  intro evs
  induction evs with
  | nil =>
    intro b b' h hr
    obtain rfl : b = b' := Option.some_inj.mp hr
    exact h
  | cons ev evs ih =>
    intro b b' h hr
    cases ev with
    | start => exact ih (Inv_start h) hr
    | startEnd => exact ih (Inv_startEnd h) hr
    | endEl =>
      cases hee : b.end_element with
      | none =>
        rw [runNav, hee] at hr
        exact Option.noConfusion hr
      | some s =>
        obtain ⟨i, b2⟩ := s
        rw [runNav, hee] at hr
        exact ih (Inv_end h hee) hr

theorem buildFrom_inv {evs : List Event} {nav : Navigator}
    (h : buildFrom evs = some nav) : NsInv nav.neighbors := by
  unfold buildFrom at h
  cases hr : runNav evs NavBuilder.new with
  | none =>
    rw [hr] at h
    exact Option.noConfusion h
  | some b' =>
    rw [hr] at h
    have hb : b'.Inv := Inv_run Inv_new hr
    obtain ⟨ns, stk, lr⟩ := b'
    have hb' : BInv ns stk lr := hb
    cases stk with
    | nil =>
      dsimp only [Option.bind, NavBuilder.build] at h
      obtain rfl : (⟨ns⟩ : Navigator) = nav := Option.some_inj.mp h
      exact hb'.ns_inv
    | cons e rest =>
      dsimp only [Option.bind, NavBuilder.build] at h
      exact Option.noConfusion h

/-! ### Query-level consequences of the invariant -/

theorem next_sibling_eq_some {nav : Navigator} {i j : Nat} :
    nav.next_sibling i = some j ↔
      ∃ n, nav.neighbors.get? i = some n ∧ n.next_sibling = some j := by
  unfold Navigator.next_sibling
  cases h : nav.neighbors.get? i <;> simp

theorem prev_sibling_eq_some {nav : Navigator} {i j : Nat} :
    nav.prev_sibling i = some j ↔
      ∃ n, nav.neighbors.get? i = some n ∧ n.prev_sibling = some j := by
  unfold Navigator.prev_sibling
  cases h : nav.neighbors.get? i <;> simp

theorem parent_eq_some {nav : Navigator} {i p : Nat} :
    nav.parent i = some p ↔
      ∃ n, nav.neighbors.get? i = some n ∧ n.parent = some p := by
  unfold Navigator.parent
  cases h : nav.neighbors.get? i <;> simp

theorem sibling_symm_of_inv {nav : Navigator} (hinv : NsInv nav.neighbors)
    (i j : Nat) :
    nav.next_sibling i = some j ↔ nav.prev_sibling j = some i := by
  constructor
  · intro h
    obtain ⟨n, hn, hnext⟩ := next_sibling_eq_some.mp h
    obtain ⟨m, hm, hprev⟩ := hinv.next_prev i n j hn hnext
    exact prev_sibling_eq_some.mpr ⟨m, hm, hprev⟩
  · intro h
    obtain ⟨n, hn, hprev⟩ := prev_sibling_eq_some.mp h
    obtain ⟨m, hm, hnext⟩ := hinv.prev_next j n i hn hprev
    exact next_sibling_eq_some.mpr ⟨m, hm, hnext⟩

theorem parent_lt_of_inv {nav : Navigator} (hinv : NsInv nav.neighbors)
    {a b : Nat} (h : nav.parent a = some b) : b < a := by
  obtain ⟨n, hn, hp⟩ := parent_eq_some.mp h
  exact hinv.parent_lt a n b hn hp

theorem Descendant_lt {nav : Navigator} (hinv : NsInv nav.neighbors)
    {d i : Nat} (h : Descendant nav d i) : i < d := by
  induction h with
  | single h1 => exact parent_lt_of_inv hinv h1
  | tail h1 h2 ih => exact lt_trans (parent_lt_of_inv hinv h2) ih

theorem first_child_ok_some {nav : Navigator} {i c : Nat}
    (h : nav.first_child i = .ok (some c)) :
    c = i + 1 ∧ ∃ n, nav.neighbors.get? (i + 1) = some n ∧
      n.parent = some i := by
  cases hg : nav.neighbors.get? (i + 1) with
  | none =>
    simp only [Navigator.first_child, hg] at h
    simp at h
  | some n =>
    cases hp : n.parent with
    | none =>
      simp only [Navigator.first_child, hg, hp] at h
      simp at h
    | some p =>
      simp only [Navigator.first_child, hg, hp] at h
      by_cases hpi : p = i
      · subst hpi
        simp at h
        exact ⟨by omega, n, rfl, hp⟩
      · simp [hpi] at h

theorem first_child_of_parent {nav : Navigator} {i : Nat} {n : Neighbors}
    (hg : nav.neighbors.get? (i + 1) = some n) (hp : n.parent = some i) :
    nav.first_child i = .ok (some (i + 1)) := by
  simp only [Navigator.first_child, hg, hp]
  simp

theorem childrenLoop_ok {ns : List Neighbors}
    (hnext : ∀ j n k, ns.get? j = some n → n.next_sibling = some k →
      j < k ∧ k < ns.length) :
    ∀ fuel c, c < ns.length → ns.length - c ≤ fuel →
      ∃ l, Navigator.childrenLoop ns fuel (some c) = .ok l := by
  intro fuel
  induction fuel with
  | zero =>
    intro c hc hf
    omega
  | succ fuel ih =>
    intro c hc hf
    obtain ⟨n, hn⟩ := get?_lt_some hc
    have hn' : ns[c]? = some n := by
      rw [← List.get?_eq_getElem?]
      exact hn
    cases hnx : n.next_sibling with
    | none =>
      exact ⟨[c], by simp [Navigator.childrenLoop, hn', hnx, Except.map]⟩
    | some k =>
      obtain ⟨hck, hk⟩ := hnext c n k hn hnx
      obtain ⟨l, hl⟩ := ih k hk (by omega)
      exact ⟨c :: l, by simp [Navigator.childrenLoop, hn', hnx, hl, Except.map]⟩

theorem children_eq_loop {nav : Navigator} {i : Nat} {fc : Option Nat}
    (hfc : nav.first_child i = .ok fc) :
    nav.children i =
      Navigator.childrenLoop nav.neighbors (nav.neighbors.length + 1) fc := by
  unfold Navigator.children
  rw [hfc]

theorem children_ok {nav : Navigator} (hinv : NsInv nav.neighbors)
    {i : Nat} {fc : Option Nat} (hfc : nav.first_child i = .ok fc) :
    ∃ l, nav.children i = .ok l := by
  rw [children_eq_loop hfc]
  cases fc with
  | none => exact ⟨[], rfl⟩
  | some c =>
    obtain ⟨rfl, n, hn, hp⟩ := first_child_ok_some hfc
    have hc : i + 1 < nav.neighbors.length := get?_some_lt hn
    exact childrenLoop_ok hinv.next_lt _ (i + 1) hc (by omega)

theorem first_child_total_of_single_root {nav : Navigator}
    (hroot : ∀ j n, nav.neighbors.get? j = some n → n.parent = none → j = 0)
    (i : Nat) : ∃ fc, nav.first_child i = .ok fc := by
  cases hg : nav.neighbors.get? (i + 1) with
  | none => exact ⟨none, by simp only [Navigator.first_child, hg]⟩
  | some n =>
    cases hp : n.parent with
    | none =>
      have := hroot (i + 1) n hg hp
      omega
    | some p =>
      by_cases hpi : p = i
      · refine ⟨some (i + 1), ?_⟩
        simp only [Navigator.first_child, hg, hp]
        simp [hpi]
      · refine ⟨none, ?_⟩
        simp only [Navigator.first_child, hg, hp]
        simp [hpi]

theorem visitFrom_ok {nav : Navigator} :
    ∀ {l : List Nat}, (∀ i ∈ l, ∃ cs, nav.children i = .ok cs) →
      ∃ vs, nav.visitFrom l = .ok vs ∧ vs.map Prod.fst = l ∧
        ∀ pr ∈ vs, nav.children pr.1 = .ok pr.2 := by
  intro l
  induction l with
  | nil =>
    intro _
    exact ⟨[], rfl, rfl, by simp⟩
  | cons i is ih =>
    intro h
    obtain ⟨cs, hcs⟩ := h i (List.mem_cons_self _ _)
    obtain ⟨vs, hvs, hmap, hall⟩ := ih (fun j hj => h j (List.mem_cons_of_mem _ hj))
    refine ⟨(i, cs) :: vs, ?_, by simp [hmap], ?_⟩
    · simp [Navigator.visitFrom, hcs, hvs, Except.map]
    · intro pr hpr
      rcases List.mem_cons.mp hpr with rfl | hpr'
      · exact hcs
      · exact hall pr hpr'

theorem range_reverse_succ (n : Nat) :
    (List.range (n + 1)).reverse = n :: (List.range n).reverse := by
  rw [List.range_succ, List.reverse_append]
  rfl

theorem posOf_range_reverse {n j : Nat} (h : j < n) :
    posOf j (List.range n).reverse = n - 1 - j := by
  induction n with
  | zero => omega
  | succ n ih =>
    rw [range_reverse_succ]
    rcases eq_or_ne n j with rfl | hne
    · simp [posOf]
    · have hj : j < n := by omega
      rw [posOf, if_neg hne, ih hj]
      omega

theorem count_range_reverse {n j : Nat} (h : j < n) :
    ((List.range n).reverse).count j = 1 := by
  induction n with
  | zero => omega
  | succ n ih =>
    rw [range_reverse_succ, List.count_cons]
    rcases eq_or_ne j n with rfl | hne
    · have h0 : (List.range j).reverse.count j = 0 := by
        rw [List.count_eq_zero]
        simp
      simp [h0]
    · have hj : j < n := by omega
      rw [ih hj]
      simp
      omega

theorem Descendant_lt_len {nav : Navigator} {d i : Nat}
    (h : Descendant nav d i) : d < nav.neighbors.length := by
  induction h with
  | single h1 =>
    obtain ⟨n, hn, -⟩ := parent_eq_some.mp h1
    exact get?_some_lt hn
  | tail h1 h2 ih => exact ih

theorem start_element_len (b : NavBuilder) :
    (b.start_element).2.neighbors.length = b.neighbors.length + 1 := by
  obtain ⟨ns, stk, lr⟩ := b
  cases stk with
  | nil =>
    cases lr with
    | none => simp [NavBuilder.start_element]
    | some r => simp [NavBuilder.start_element, patchNext_length]
  | cons e rest =>
    obtain ⟨p, lc⟩ := e
    cases lc with
    | none => simp [NavBuilder.start_element]
    | some c => simp [NavBuilder.start_element, patchNext_length]

theorem end_element_neighbors {b : NavBuilder} {i : Nat} {b' : NavBuilder}
    (h : b.end_element = some (i, b')) : b'.neighbors = b.neighbors := by
  obtain ⟨ns, stk, lr⟩ := b
  cases stk with
  | nil => exact absurd h (by simp [NavBuilder.end_element])
  | cons e rest =>
    obtain ⟨i', lc⟩ := e
    cases rest with
    | nil =>
      dsimp only [NavBuilder.end_element] at h
      injection h with h1
      injection h1 with h2 h3
      rw [← h3]
    | cons f rest2 =>
      obtain ⟨p, plc⟩ := f
      dsimp only [NavBuilder.end_element] at h
      injection h with h1
      injection h1 with h2 h3
      rw [← h3]

theorem start_end_element_len (b : NavBuilder) :
    (b.start_end_element).2.neighbors.length = b.neighbors.length + 1 := by
  rw [end_element_neighbors (start_end_eq b).1]
  exact start_element_len b

theorem runBuilder_values {A : Type} :
    ∀ (evs : List (BEvent A)) (b b' : Builder A),
      runBuilder evs b = some b' →
      b'.values = b.values ++ startPayloads evs := by
  intro evs
  induction evs with
  | nil =>
    intro b b' h
    obtain rfl : b = b' := Option.some_inj.mp h
    simp [startPayloads]
  | cons ev evs ih =>
    intro b b' h
    cases ev with
    | start a =>
      have := ih (b.start_element a).2 b' h
      rw [this]
      simp [Builder.start_element, startPayloads]
    | startEnd a =>
      have := ih (b.start_end_element a).2 b' h
      rw [this]
      simp [Builder.start_end_element, startPayloads]
    | endEl =>
      cases hee : b.end_element with
      | none =>
        rw [runBuilder, hee] at h
        exact Option.noConfusion h
      | some s =>
        rw [runBuilder, hee] at h
        have := ih s.2 b' h
        rw [this]
        have hv : s.2.values = b.values := by
          unfold Builder.end_element at hee
          cases hne : b.nav_builder.end_element with
          | none =>
            rw [hne] at hee
            exact Option.noConfusion hee
          | some t =>
            rw [hne] at hee
            obtain rfl : (t.1, (⟨t.2, b.values⟩ : Builder A)) = s :=
              Option.some_inj.mp hee
            rfl
        rw [hv]
        simp [startPayloads]

theorem runBuilder_len {A : Type} :
    ∀ (evs : List (BEvent A)) (b b' : Builder A),
      runBuilder evs b = some b' →
      b.values.length = b.nav_builder.neighbors.length →
      b'.values.length = b'.nav_builder.neighbors.length := by
  intro evs
  induction evs with
  | nil =>
    intro b b' h hlen
    obtain rfl : b = b' := Option.some_inj.mp h
    exact hlen
  | cons ev evs ih =>
    intro b b' h hlen
    cases ev with
    | start a =>
      refine ih (b.start_element a).2 b' h ?_
      show (b.values ++ [a]).length = (b.nav_builder.start_element).2.neighbors.length
      rw [len_app_one, start_element_len, hlen]
    | startEnd a =>
      refine ih (b.start_end_element a).2 b' h ?_
      show (b.values ++ [a]).length =
        (b.nav_builder.start_end_element).2.neighbors.length
      rw [len_app_one, start_end_element_len, hlen]
    | endEl =>
      cases hee : b.end_element with
      | none =>
        rw [runBuilder, hee] at h
        exact Option.noConfusion h
      | some s =>
        rw [runBuilder, hee] at h
        refine ih s.2 b' h ?_
        unfold Builder.end_element at hee
        cases hne : b.nav_builder.end_element with
        | none =>
          rw [hne] at hee
          exact Option.noConfusion hee
        | some t =>
          rw [hne] at hee
          obtain rfl : (t.1, (⟨t.2, b.values⟩ : Builder A)) = s :=
            Option.some_inj.mp hee
          obtain ⟨j, nb⟩ := t
          show b.values.length = nb.neighbors.length
          rw [end_element_neighbors hne]
          exact hlen

example : buildFrom evs3 = some nav3 := by decide
example : buildFrom evs4 = some twoRootNav := by decide
example : nav3.children 0 = .ok [1, 2] := rfl
example : nav3.first_child 0 = .ok (some 1) := rfl
example : nav3.next_sibling 1 = some 2 := by decide
example : nav3.prev_sibling 2 = some 1 := by decide
example : twoRootNav.first_child 0 = .error .panic := rfl
example : twoRootNav.next_sibling 0 = some 1 := by decide
example : nav3.for_each_depth_first = .ok [(2, []), (1, []), (0, [1, 2])] := rfl
example : twoRootNav.for_each_depth_first = .error .panic := rfl

/-! ## Claims -/

/-- C1: the claim states that `first_child(i)` returns `some (i + 1)` iff a
record exists at `i + 1` with parent `i`, and is otherwise absent. The code
violates this: on the two-root tree of scenario 4 a record exists at
position 1 whose `parent` field is absent, the claim demands an absent
result, but `first_child(0)` panics on `i.parent.unwrap()`. This theorem
evaluates the code at that failing input. -/
theorem c1_first_child_unwrap_panics :
    buildFrom evs4 = some twoRootNav ∧
    twoRootNav.neighbors.get? (0 + 1) = some ⟨none, some 0, none⟩ ∧
    twoRootNav.first_child 0 = .error .panic :=
  ⟨by decide, rfl, rfl⟩

/-- C2 counterexample: the claim, as stated, includes `get_neighbors` among
the queries that return an absent/empty result on an out-of-bounds index.
On the navigator built from no events, `get_neighbors 0` is an
out-of-bounds query (`0 ≥ node count`), and it panics instead of being
absent. -/
theorem c2_get_neighbors_oob_panics :
    buildFrom [] = some emptyNav ∧ emptyNav.neighbors.length ≤ 0 ∧
    emptyNav.get_neighbors 0 = .error .panic :=
  ⟨rfl, by decide, rfl⟩

/-- C2 (amended): for every Navigator and every index `i ≥ node count`,
`parent`, `prev_sibling`, `next_sibling` and `first_child` return an
absent result and `children` returns the empty sequence, while
`get_neighbors` panics (out-of-bounds slice indexing) rather than
returning an absent result. -/
theorem c2_out_of_bounds_queries_total (nav : Navigator) (i : Nat)
    (h : nav.neighbors.length ≤ i) :
    nav.parent i = none ∧ nav.prev_sibling i = none ∧
    nav.next_sibling i = none ∧ nav.first_child i = .ok none ∧
    nav.children i = .ok [] ∧ nav.get_neighbors i = .error .panic := by
  have hg : nav.neighbors.get? i = none := get?_none_of_le h
  have hg1 : nav.neighbors.get? (i + 1) = none := get?_none_of_le (by omega)
  have hfc : nav.first_child i = .ok none := by
    simp only [Navigator.first_child, hg1]
  refine ⟨?_, ?_, ?_, hfc, ?_, ?_⟩
  · unfold Navigator.parent
    rw [hg]
    rfl
  · unfold Navigator.prev_sibling
    rw [hg]
    rfl
  · unfold Navigator.next_sibling
    rw [hg]
    rfl
  · rw [children_eq_loop hfc]
    rfl
  · simp only [Navigator.get_neighbors, hg]

/-- C2 witness: the amended statement applied to the scenario 3 navigator
at the out-of-bounds index 5. -/
theorem c2_witness :
    nav3.parent 5 = none ∧ nav3.prev_sibling 5 = none ∧
    nav3.next_sibling 5 = none ∧ nav3.first_child 5 = .ok none ∧
    nav3.children 5 = .ok [] ∧ nav3.get_neighbors 5 = .error .panic :=
  c2_out_of_bounds_queries_total nav3 5 (by decide)

/-- C3 counterexample: the claim, as stated, covers every Navigator built
from a balanced event sequence, but on the two-root tree of scenario 4 the
depth-first traversal panics (through `first_child`'s `unwrap`) instead of
invoking the callback once per index. -/
theorem c3_two_root_traversal_panics :
    buildFrom evs4 = some twoRootNav ∧
    twoRootNav.for_each_depth_first = .error .panic :=
  ⟨by decide, rfl⟩

/-- C3 (amended): for every Navigator built from a balanced event sequence
in which index 0 is the only root (every other record has a parent),
`for_each_depth_first` invokes the callback exactly once for each index,
with arguments `(index, children(index))`, iterating indices from `N - 1`
down to `0`, so that all of a node's descendants are visited strictly
before the node itself; on the three-node tree of scenario 3 the visit
order is `[2, 1, 0]`. -/
theorem c3_depth_first_visits :
    (∀ evs nav, buildFrom evs = some nav →
      (∀ j n, nav.neighbors.get? j = some n → n.parent = none → j = 0) →
      ∃ vs, nav.for_each_depth_first = .ok vs ∧
        vs.map Prod.fst = (List.range nav.neighbors.length).reverse ∧
        (∀ i, i < nav.neighbors.length → (vs.map Prod.fst).count i = 1) ∧
        (∀ pr ∈ vs, nav.children pr.1 = .ok pr.2) ∧
        (∀ d i, Descendant nav d i →
          posOf d (vs.map Prod.fst) < posOf i (vs.map Prod.fst))) ∧
    nav3.for_each_depth_first = .ok [(2, []), (1, []), (0, [1, 2])] := by
  constructor
  · intro evs nav hb hroot
    have hinv := buildFrom_inv hb
    have hall : ∀ i, ∃ cs, nav.children i = .ok cs := by
      intro i
      obtain ⟨fc, hfc⟩ := first_child_total_of_single_root hroot i
      exact children_ok hinv hfc
    obtain ⟨vs, hvs, hmap, hallv⟩ :=
      visitFrom_ok (l := (List.range nav.neighbors.length).reverse)
        (fun i _ => hall i)
    refine ⟨vs, hvs, hmap, ?_, hallv, ?_⟩
    · intro i hi
      rw [hmap]
      exact count_range_reverse hi
    · intro d i hdi
      have hlt : i < d := Descendant_lt hinv hdi
      have hd : d < nav.neighbors.length := Descendant_lt_len hdi
      rw [hmap, posOf_range_reverse hd, posOf_range_reverse (lt_trans hlt hd)]
      omega
  · rfl

/-- C3 witness: the amended statement applied to scenario 3, whose only
root is index 0. -/
theorem c3_witness :
    ∃ vs, nav3.for_each_depth_first = .ok vs ∧
      vs.map Prod.fst = (List.range nav3.neighbors.length).reverse ∧
      (∀ i, i < nav3.neighbors.length → (vs.map Prod.fst).count i = 1) ∧
      (∀ pr ∈ vs, nav3.children pr.1 = .ok pr.2) ∧
      (∀ d i, Descendant nav3 d i →
        posOf d (vs.map Prod.fst) < posOf i (vs.map Prod.fst)) := by
  refine c3_depth_first_visits.1 evs3 nav3 (by decide) ?_
  intro j n hj hp
  have h3 : j < 3 := get?_some_lt hj
  interval_cases j
  · rfl
  · obtain rfl : (⟨some 0, none, some 2⟩ : Neighbors) = n :=
      Option.some_inj.mp hj
    exact Option.noConfusion hp
  · obtain rfl : (⟨some 0, some 1, none⟩ : Neighbors) = n :=
      Option.some_inj.mp hj
    exact Option.noConfusion hp

/-- C4: for every tree built from a balanced event sequence, every
descendant of a node has a strictly greater index, and whenever any record
names `i` as its parent, the record at `i + 1` does too, so
`first_child i` returns `i + 1` (the contiguity invariant). -/
theorem c4_descendant_order_and_contiguity (evs : List Event)
    (nav : Navigator) (hb : buildFrom evs = some nav) :
    (∀ d i, Descendant nav d i → i < d) ∧
    (∀ j n i, nav.neighbors.get? j = some n → n.parent = some i →
      nav.first_child i = .ok (some (i + 1))) := by
  have hinv := buildFrom_inv hb
  refine ⟨fun d i h => Descendant_lt hinv h, ?_⟩
  intro j n i hj hp
  obtain ⟨m, hm, hmp⟩ := hinv.contig j n i hj hp
  exact first_child_of_parent hm hmp

/-- C4 witness: the statement applied to the scenario 3 tree. -/
theorem c4_witness :
    (∀ d i, Descendant nav3 d i → i < d) ∧
    (∀ j n i, nav3.neighbors.get? j = some n → n.parent = some i →
      nav3.first_child i = .ok (some (i + 1))) :=
  c4_descendant_order_and_contiguity evs3 nav3 (by decide)

/-- C5: for every built tree and all indices `i`, `j`,
`next_sibling i = some j` holds iff `prev_sibling j = some i` holds. -/
theorem c5_sibling_symmetry (evs : List Event) (nav : Navigator)
    (hb : buildFrom evs = some nav) (i j : Nat) :
    nav.next_sibling i = some j ↔ nav.prev_sibling j = some i :=
  sibling_symm_of_inv (buildFrom_inv hb) i j

/-- C5 witness: the statement applied to scenario 3 at the sibling pair
`(1, 2)`, together with the concrete value of both sides. -/
theorem c5_witness :
    nav3.next_sibling 1 = some 2 ∧
    (nav3.next_sibling 1 = some 2 ↔ nav3.prev_sibling 2 = some 1) :=
  ⟨rfl, c5_sibling_symmetry evs3 nav3 (by decide) 1 2⟩

/-- C6: calling `end_element` on a builder with no open node, or `build`
with a node still open, is a hard failure at the point of violation
(modelled as `none`); it never produces a Navigator. -/
theorem c6_protocol_violations_fail (A : Type) (b : Builder A) :
    (b.nav_builder.stack = [] → b.end_element = none) ∧
    (b.nav_builder.stack ≠ [] → b.build = none) := by
  constructor
  · intro h
    unfold Builder.end_element NavBuilder.end_element
    rw [h]
    rfl
  · intro h
    unfold Builder.build NavBuilder.build
    cases hs : b.nav_builder.stack with
    | nil => exact absurd hs h
    | cons e rest => rfl

/-- C6 witness: a fresh builder has no open node, so `end_element` fails;
a builder with one open node makes `build` fail. -/
theorem c6_witness :
    (Builder.new Nat).end_element = none ∧
    ((Builder.new Nat).start_element 0).2.build = none :=
  ⟨(c6_protocol_violations_fail Nat (Builder.new Nat)).1 rfl,
   (c6_protocol_violations_fail Nat
     ((Builder.new Nat).start_element 0).2).2 (by decide)⟩

/-- C7: for every builder state and payload, `start_end_element` is
equivalent to `start_element` immediately followed by `end_element`: the
`end_element` call succeeds, returns the same index, and leaves the
builder in exactly the state `start_end_element` produces (hence the
finally built tree has identical links and payloads). -/
theorem c7_start_end_element_equiv (A : Type) (b : Builder A) (el : A) :
    (b.start_element el).2.end_element =
      some ((b.start_element el).1, (b.start_end_element el).2) ∧
    (b.start_end_element el).1 = (b.start_element el).1 := by
  obtain ⟨⟨ns, stk, lr⟩, vals⟩ := b
  cases stk with
  | nil => exact ⟨rfl, rfl⟩
  | cons e rest =>
    obtain ⟨p, lc⟩ := e
    exact ⟨rfl, rfl⟩

/-- C8: building from an empty builder yields a tree with 0 nodes and no
payloads, on which `children 0` is empty and `parent 0` is absent. -/
theorem c8_empty_build (A : Type) :
    ∃ t : FlatTree A, (Builder.new A).build = some t ∧
      t.nav.neighbors.length = 0 ∧ t.values = [] ∧
      t.nav.children 0 = .ok [] ∧ t.nav.parent 0 = none :=
  ⟨⟨⟨[]⟩, []⟩, rfl, rfl, rfl, rfl, rfl⟩

/-- C9: every start call appends exactly one payload, so a builder reached
from a fresh one holds exactly the start payloads in order, one per
appended node, and the built tree keeps one payload per node index. -/
theorem c9_one_payload_per_start (A : Type) (evs : List (BEvent A))
    (b' : Builder A) (h : runBuilder evs (Builder.new A) = some b') :
    b'.values = startPayloads evs ∧
    b'.values.length = b'.nav_builder.neighbors.length ∧
    ∀ t, b'.build = some t → t.values = startPayloads evs ∧
      t.values.length = t.nav.neighbors.length := by
  have hv := runBuilder_values evs _ _ h
  have hl := runBuilder_len evs _ _ h rfl
  rw [show (Builder.new A).values = [] from rfl, List.nil_append] at hv
  refine ⟨hv, hl, ?_⟩
  intro t ht
  unfold Builder.build at ht
  cases hb : b'.nav_builder.build with
  | none =>
    rw [hb] at ht
    exact Option.noConfusion ht
  | some nv =>
    rw [hb] at ht
    obtain rfl : (⟨nv, b'.values⟩ : FlatTree A) = t := Option.some_inj.mp ht
    have hnn : nv.neighbors = b'.nav_builder.neighbors := by
      unfold NavBuilder.build at hb
      cases hs : b'.nav_builder.stack with
      | nil =>
        rw [hs] at hb
        rw [← Option.some_inj.mp hb]
      | cons e rest =>
        rw [hs] at hb
        exact Option.noConfusion hb
    refine ⟨hv, ?_⟩
    show b'.values.length = nv.neighbors.length
    rw [hnn]
    exact hl

/-- C9 witness: the statement applied to the concrete run of `bEvs`. -/
theorem c9_witness :
    bDone.values = startPayloads bEvs ∧
    bDone.values.length = bDone.nav_builder.neighbors.length ∧
    ∀ t, bDone.build = some t → t.values = startPayloads bEvs ∧
      t.values.length = t.nav.neighbors.length :=
  c9_one_payload_per_start Nat bEvs bDone rfl

/-- C10: on every built Navigator, whenever `first_child` succeeds, the
`children` loop terminates without its internal `unwrap` failing: every
`next_sibling` link it follows is in bounds. -/
theorem c10_children_loop_never_panics (evs : List Event) (nav : Navigator)
    (hb : buildFrom evs = some nav) (i : Nat) (fc : Option Nat)
    (hfc : nav.first_child i = .ok fc) :
    ∃ l, nav.children i = .ok l :=
  children_ok (buildFrom_inv hb) hfc

/-- C10 witness: the statement applied to scenario 3 at the root. -/
theorem c10_witness : ∃ l, nav3.children 0 = .ok l :=
  c10_children_loop_never_panics evs3 nav3 (by decide) 0 (some 1) rfl

end FlangeFlatTree
